import Mathlib

/-
  Verification development for the contract-variable-tracer repository.

  Shallow embedding of the core algorithms:
    - chunk / dedup         (src/utils/chunk.ts, src/utils/dedup.ts)
    - collectBlockNumbers   (the block-range scanner loop)
    - trace sampling phase  (batched reads, ERROR sentinel, filter, dedup)
    - trace progress events (the onProgress emissions of the sampling loop)
    - checkValueChange      (the live watcher per-log value check with retries)

  Block numbers are modelled as Nat (the source carries them as decimal
  strings of bigints and always compares them numerically); contract read
  results are modelled as an oracle returning Option String, where none
  models a throw and some v a successful read whose decoded value prints
  as v.  Chunk sizes are modelled as Int so that non-positive sizes are
  expressible.  Asynchrony is flattened: within a batch the source awaits
  Promise.all, which preserves the order of the mapped requests, so a batch
  is modelled as an in-order map.
-/

namespace CVT

/-- Mirror of the TraceResult rows of the source: a block number and the
decimal string rendering of the value read there. -/
structure TraceResult where
  blockNumber : Nat
  value : String
deriving DecidableEq, Repr

/-- Observable events of one watcher value check: a setTimeout delay of the
given milliseconds, an invocation of the onNewValue callback, or a call into
the shared handleError routine. -/
inductive WEvent where
  | delay (ms : Nat)
  | notify (prev : Option TraceResult) (curr : TraceResult)
  | errorHandled
deriving DecidableEq, Repr

/-- Whether a watcher event is an onNewValue invocation. -/
def WEvent.isNotify : WEvent → Bool
  | WEvent.notify _ _ => true
  | _ => false

/-- Observable events of the sampling loop of trace: an onProgress emission
carrying (current, total), or the settlement of the Promise.all of batch i. -/
inductive TraceEvent where
  | progress (current total : Nat)
  | batchSettled (i : Nat)
deriving DecidableEq, Repr

/-- One round of the slicing loop of chunk: the first chunk holds k+1
elements (the source chunk size), the rest is chunked recursively.  The
fuel argument makes the recursion structural; chunksOf supplies fuel equal
to the list length, which is always sufficient. -/
def chunksOfF (k : Nat) : Nat → List α → List (List α)
  | _, [] => []
  | 0, _ :: _ => []
  | fuel + 1, x :: xs => (x :: xs.take k) :: chunksOfF k fuel (xs.drop k)

/-- Grouping into chunks of size k+1, mirroring the slice loop of chunk. -/
def chunksOf (k : Nat) (l : List α) : List (List α) :=
  chunksOfF k l.length l

/-- Mirror of chunk (src/utils/chunk.ts): throws on size less than or equal
to zero, otherwise slices the array into groups of the given size. -/
def chunk (l : List α) (size : Int) : Except String (List (List α)) :=
  if size ≤ 0 then Except.error "Chunk size must be greater than 0"
  else Except.ok (chunksOf (size.toNat - 1) l)

/-- Loop body of dedup: prev is the immediately preceding INPUT element
(array index i-1 of the source); the current element is kept exactly when
the comparison function says it differs from prev. -/
def dedupGo (cmp : α → α → Bool) : α → List α → List α
  | _, [] => []
  | prev, x :: xs => (if cmp x prev then [] else [x]) ++ dedupGo cmp x xs

/-- Mirror of dedup (src/utils/dedup.ts): length zero or one inputs are
returned as a copy; otherwise the first element is kept and each later
element is kept iff it differs from its input predecessor. -/
def dedup (cmp : α → α → Bool) (l : List α) : List α :=
  match l with
  | [] => l
  | [_] => l
  | x :: xs => x :: dedupGo cmp x xs

/-- Mirror of the JS Set used by collectBlockNumbers: keeps the first
occurrence of each element, in encounter order. -/
def jsSetDedupGo (seen : List Nat) : List Nat → List Nat
  | [] => []
  | x :: xs => if x ∈ seen then jsSetDedupGo seen xs else x :: jsSetDedupGo (x :: seen) xs

/-- Insertion-order deduplication, as new Set does. -/
def jsSetDedup (l : List Nat) : List Nat :=
  jsSetDedupGo [] l

/-- The scan loop of collectBlockNumbers: while cursor is below toBlock,
call getLogs on (cursor, endBlock) where endBlock caps cursor + span at
toBlock, concatenate the results in iteration order, and advance the cursor
by span.  Fuel-indexed: none models a loop that has not finished within the
given number of iterations (the source loop has no other exit), so a result
that is none for every fuel is a loop that never terminates. -/
def scanAux (getLogs : Nat → Nat → List α) (span toBlock : Nat) :
    Nat → Nat → Option (List α)
  | 0, cur => if cur < toBlock then none else some []
  | fuel + 1, cur =>
    if cur < toBlock then
      let endBlock := if cur + span > toBlock then toBlock else cur + span
      match scanAux getLogs span toBlock fuel (cur + span) with
      | none => none
      | some rest => some (getLogs cur endBlock ++ rest)
    else some []

/-- The raw concatenated log results of the scan loop, fuelled by
toBlock - fromBlock, which suffices whenever span is at least 1. -/
def collectRaw (getLogs : Nat → Nat → List α) (fromBlock toBlock span : Nat) :
    Option (List α) :=
  scanAux getLogs span toBlock (toBlock - fromBlock) fromBlock

/-- The exact (fromBlock, toBlock) argument pairs handed to getLogs by the
scan loop, in call order. -/
def queryRanges (fromBlock toBlock span : Nat) : Option (List (Nat × Nat)) :=
  collectRaw (fun a b => [(a, b)]) fromBlock toBlock span

/-- Mirror of collectBlockNumbers: run the scan loop, then deduplicate via
Set membership and sort by the numeric comparator (a, b) => Number(a) -
Number(b).  Block numbers are modelled numerically; the sort is modelled by
insertion sort, which agrees with any correct comparator sort because the
deduplicated elements are pairwise distinct under a total order. -/
def collectBlockNumbersM (getLogs : Nat → Nat → List Nat)
    (fromBlock toBlock span : Nat) : Option (List Nat) :=
  (collectRaw getLogs fromBlock toBlock span).map
    (fun raw => List.insertionSort (· ≤ ·) (jsSetDedup raw))

/-- The read performed for one block of a batch in trace: a successful read
yields its value string, a throw is caught locally and replaced by the
ERROR sentinel row. -/
def readRow (read : Nat → Option String) (b : Nat) : TraceResult :=
  match read b with
  | some v => { blockNumber := b, value := v }
  | none => { blockNumber := b, value := "ERROR" }

/-- Mirror of the sampling phase of trace: chunk the block numbers (the
chunk call precedes every contract read and propagates the chunk error),
read every block of every batch in order, concatenate the settled batches,
filter out the ERROR sentinel rows, and finally dedup by value equality
when the dedup flag is set. -/
def traceSample (read : Nat → Option String) (blockNumbers : List Nat)
    (batchSize : Int) (isDedup : Bool) : Except String (List TraceResult) :=
  match chunk blockNumbers batchSize with
  | Except.error e => Except.error e
  | Except.ok chunks =>
    let allValues := (chunks.map (fun blockChunk => blockChunk.map (readRow read))).flatten
    let filtered := allValues.filter (fun r => r.value != "ERROR")
    Except.ok (if isDedup then dedup (fun a b => a.value == b.value) filtered else filtered)

/-- The onProgress emissions and batch settlements of the sampling loop of
trace, in program order.  Iteration i of the source loop emits
progress (i * batchSize, total), then builds the request promises, then
emits progress (total, total) - the emission under the 100 percent comment -
and only then awaits Promise.all, which is the settlement of batch i.  No
event is emitted after the loop. -/
def traceSampleEvents (blockNumbers : List Nat) (batchSize : Int) :
    Except String (List TraceEvent) :=
  match chunk blockNumbers batchSize with
  | Except.error e => Except.error e
  | Except.ok chunks =>
    Except.ok ((List.range chunks.length).flatMap (fun i =>
      [TraceEvent.progress (i * batchSize.toNat) blockNumbers.length,
       TraceEvent.progress blockNumbers.length blockNumbers.length,
       TraceEvent.batchSettled i]))

/-- The success path of checkValueChange, after readVariableAtBlock
returned: skip silently when a current value exists and equals the new
value; otherwise, when the filter is absent or accepts (current, new),
replace the current value and invoke onNewValue with the old value as prev;
when the filter rejects, do nothing. -/
def onReadSuccess (filter : Option (Option TraceResult → TraceResult → Bool))
    (current : Option TraceResult) (newResult : TraceResult) :
    Option TraceResult × List WEvent :=
  if (match current with
      | some c => c.value == newResult.value
      | none => false) then
    (current, [])
  else if (match filter with
      | none => true
      | some f => f current newResult) then
    (some newResult, [WEvent.notify current newResult])
  else
    (current, [])

/-- The retry recursion of checkValueChange.  The read oracle is indexed by
the attempt number (the retryCount of the source); remaining is
maxRetries - attempt, so remaining = 0 is exactly the source condition
retryCount < maxRetries failing, which routes to handleError.  A failed
attempt with retries remaining waits 1000 * (retryCount + 1) ms and
recurses with retryCount + 1. -/
def checkGo (read : Nat → Option String)
    (filter : Option (Option TraceResult → TraceResult → Bool))
    (blockNumber : Nat) :
    Option TraceResult → Nat → Nat → Option TraceResult × List WEvent
  | current, attempt, 0 =>
    (match read attempt with
     | some v => onReadSuccess filter current { blockNumber := blockNumber, value := v }
     | none => (current, [WEvent.errorHandled]))
  | current, attempt, remaining + 1 =>
    (match read attempt with
     | some v => onReadSuccess filter current { blockNumber := blockNumber, value := v }
     | none =>
       let r := checkGo read filter blockNumber current (attempt + 1) remaining
       (r.1, WEvent.delay (1000 * (attempt + 1)) :: r.2))

/-- Mirror of one checkValueChange invocation (watcher active throughout):
returns the final current value and the list of observable events. -/
def checkValueChange (read : Nat → Option String)
    (filter : Option (Option TraceResult → TraceResult → Bool))
    (maxRetries blockNumber : Nat) (current : Option TraceResult) :
    Option TraceResult × List WEvent :=
  checkGo read filter blockNumber current 0 maxRetries

/-! Helper lemmas about the chunker. -/

theorem chunksOfF_flatten (k : Nat) :
    ∀ (fuel : Nat) (l : List α), l.length ≤ fuel → (chunksOfF k fuel l).flatten = l := by
  intro fuel
  induction fuel with
  | zero =>
    intro l hl
    cases l with
    | nil => rfl
    | cons x xs => simp at hl
  | succ f ih =>
    intro l hl
    cases l with
    | nil => rfl
    | cons x xs =>
      simp only [chunksOfF, List.flatten_cons]
      have hlen : (xs.drop k).length ≤ f := by
        simp only [List.length_drop]
        simp only [List.length_cons] at hl
        omega
      rw [ih (xs.drop k) hlen]
      simp [List.take_append_drop]

theorem chunksOf_flatten (k : Nat) (l : List α) : (chunksOf k l).flatten = l :=
  chunksOfF_flatten k l.length l le_rfl

theorem chunksOfF_length_bounds (k : Nat) :
    ∀ (fuel : Nat) (l : List α), ∀ c ∈ chunksOfF k fuel l, 1 ≤ c.length ∧ c.length ≤ k + 1 := by
  intro fuel
  induction fuel with
  | zero =>
    intro l c hc
    cases l with
    | nil => simp [chunksOfF] at hc
    | cons x xs => simp [chunksOfF] at hc
  | succ f ih =>
    intro l c hc
    cases l with
    | nil => simp [chunksOfF] at hc
    | cons x xs =>
      simp only [chunksOfF, List.mem_cons] at hc
      rcases hc with hc | hc
      · subst hc
        simp only [List.length_cons, List.length_take]
        omega
      · exact ih (xs.drop k) c hc

theorem chunksOfF_dropLast_length (k : Nat) :
    ∀ (fuel : Nat) (l : List α), l.length ≤ fuel →
      ∀ c ∈ (chunksOfF k fuel l).dropLast, c.length = k + 1 := by
  intro fuel
  induction fuel with
  | zero =>
    intro l hl c hc
    cases l with
    | nil => simp [chunksOfF] at hc
    | cons x xs => simp at hl
  | succ f ih =>
    intro l hl c hc
    cases l with
    | nil => simp [chunksOfF] at hc
    | cons x xs =>
      simp only [chunksOfF] at hc
      cases hrest : chunksOfF k f (xs.drop k) with
      | nil => rw [hrest] at hc; simp at hc
      | cons r rs =>
        rw [hrest] at hc
        have hne : xs.drop k ≠ [] := by
          intro hnil
          rw [hnil] at hrest
          cases f <;> simp [chunksOfF] at hrest
        have hklt : k < xs.length := by
          by_contra hge
          exact hne (List.drop_eq_nil_of_le (by omega))
        simp only [List.dropLast_cons₂, List.mem_cons] at hc
        rcases hc with hc | hc
        · subst hc
          simp only [List.length_cons, List.length_take]
          omega
        · have hlen : (xs.drop k).length ≤ f := by
            simp only [List.length_drop]
            simp only [List.length_cons] at hl
            omega
          have := ih (xs.drop k) hlen c
          rw [hrest] at this
          exact this hc

/-! Helper lemmas about dedup. -/

theorem dedupGo_eq (cmp : α → α → Bool) :
    ∀ (xs : List α) (p : α),
      dedupGo cmp p xs
        = (xs.zip (p :: xs)).filterMap
            (fun q => if cmp q.1 q.2 then none else some q.1) := by
  intro xs
  induction xs with
  | nil => intro p; rfl
  | cons x rest ih =>
    intro p
    simp only [dedupGo, List.zip_cons_cons, List.filterMap_cons, ih x]
    by_cases h : cmp x p = true
    · simp [h]
    · simp [h]

theorem mem_dedupGo (cmp : α → α → Bool) :
    ∀ (xs : List α) (p : α) (y : α), y ∈ dedupGo cmp p xs → y ∈ xs := by
  intro xs
  induction xs with
  | nil => intro p y h; simp [dedupGo] at h
  | cons x rest ih =>
    intro p y h
    simp only [dedupGo, List.mem_append] at h
    rcases h with h | h
    · by_cases hc : cmp x p = true
      · simp [hc] at h
      · simp [hc] at h
        simp [h]
    · exact List.mem_cons_of_mem x (ih x y h)

theorem mem_dedup (cmp : α → α → Bool) (l : List α) (y : α) :
    y ∈ dedup cmp l → y ∈ l := by
  match l with
  | [] => intro h; exact h
  | [x] => intro h; exact h
  | x :: b :: xs =>
    intro h
    simp only [dedup, List.mem_cons] at h
    rcases h with h | h
    · simp [h]
    · exact List.mem_cons_of_mem x (mem_dedupGo cmp (b :: xs) x y h)

/-! Helper lemmas about the scan loop. -/

theorem scanAux_some (g : Nat → Nat → List α) (s t : Nat) (hs : 1 ≤ s) :
    ∀ (fuel cur : Nat), t - cur ≤ fuel → ∃ l, scanAux g s t fuel cur = some l := by
  intro fuel
  induction fuel with
  | zero =>
    intro cur h
    have hc : ¬ cur < t := by omega
    exact ⟨[], by simp [scanAux, hc]⟩
  | succ f ih =>
    intro cur h
    by_cases hc : cur < t
    · obtain ⟨rest, hrest⟩ := ih (cur + s) (by omega)
      exact ⟨g cur (if cur + s > t then t else cur + s) ++ rest, by simp [scanAux, hc, hrest]⟩
    · exact ⟨[], by simp [scanAux, hc]⟩

theorem scanRanges_head (s t : Nat) (fuel cur : Nat) (rs : List (Nat × Nat))
    (hfuel : t - cur ≤ fuel) (hcur : cur < t)
    (hscan : scanAux (fun a b => [(a, b)]) s t fuel cur = some rs) :
    ∃ tl, rs = (cur, min (cur + s) t) :: tl := by
  cases fuel with
  | zero => omega
  | succ f =>
    simp only [scanAux, if_pos hcur] at hscan
    cases hrec : scanAux (fun a b => [(a, b)]) s t f (cur + s) with
    | none => rw [hrec] at hscan; simp at hscan
    | some rest =>
      rw [hrec] at hscan
      simp only [Option.some.injEq] at hscan
      refine ⟨rest, ?_⟩
      rw [← hscan]
      have hmin : (if cur + s > t then t else cur + s) = min (cur + s) t := by
        split <;> omega
      simp [hmin]

theorem scanRanges_spec (s t : Nat) (hs : 1 ≤ s) :
    ∀ (fuel cur : Nat) (rs : List (Nat × Nat)), t - cur ≤ fuel →
      scanAux (fun a b => [(a, b)]) s t fuel cur = some rs →
      (∀ r ∈ rs, cur ≤ r.1 ∧ r.1 < t ∧ r.2 = min (r.1 + s) t) ∧
      (∀ x, (∃ r ∈ rs, r.1 ≤ x ∧ x ≤ r.2) ↔ (cur ≤ x ∧ x ≤ t ∧ cur < t)) ∧
      (∀ r ∈ rs, r.1 + s < t → (r.1 + s, min (r.1 + s + s) t) ∈ rs) := by
  intro fuel
  induction fuel with
  | zero =>
    intro cur rs hfuel hscan
    have hc : ¬ cur < t := by omega
    simp only [scanAux, if_neg hc, Option.some.injEq] at hscan
    subst hscan
    refine ⟨by simp, ?_, by simp⟩
    intro x
    simp only [List.not_mem_nil, false_and, exists_false]
    constructor
    · intro h; exact absurd h (by simp)
    · intro h; omega
  | succ f ih =>
    intro cur rs hfuel hscan
    by_cases hc : cur < t
    · simp only [scanAux, if_pos hc] at hscan
      cases hrec : scanAux (fun a b => [(a, b)]) s t f (cur + s) with
      | none => rw [hrec] at hscan; simp at hscan
      | some rest =>
        rw [hrec] at hscan
        simp only [Option.some.injEq] at hscan
        have hmin : (if cur + s > t then t else cur + s) = min (cur + s) t := by
          split <;> omega
        obtain ⟨ih1, ih2, ih3⟩ := ih (cur + s) rest (by omega) hrec
        subst hscan
        refine ⟨?_, ?_, ?_⟩
        · intro r hr
          rcases List.mem_cons.mp hr with hr | hr
          · subst hr
            refine ⟨le_rfl, hc, ?_⟩
            simpa using hmin
          · obtain ⟨h1, h2, h3⟩ := ih1 r hr
            exact ⟨by omega, h2, h3⟩
        · intro x
          constructor
          · intro ⟨r, hr, hx1, hx2⟩
            rcases List.mem_cons.mp hr with hr | hr
            · subst hr
              simp only [hmin] at hx2
              simp only at hx1
              omega
            · have := (ih2 x).mp ⟨r, hr, hx1, hx2⟩
              omega
          · intro ⟨hcx, hxt, _⟩
            by_cases hxe : x ≤ min (cur + s) t
            · refine ⟨(cur, if cur + s > t then t else cur + s), List.mem_cons_self _ _, hcx, ?_⟩
              simp only [hmin]
              omega
            · have hr := (ih2 x).mpr (by omega)
              obtain ⟨r, hr, hx1, hx2⟩ := hr
              exact ⟨r, List.mem_cons_of_mem _ hr, hx1, hx2⟩
        · intro r hr hlt
          rcases List.mem_cons.mp hr with hr | hr
          · subst hr
            simp only at hlt
            obtain ⟨tl, htl⟩ := scanRanges_head s t f (cur + s) rest (by omega) (by omega) hrec
            have : (cur + s, min (cur + s + s) t) ∈ rest := by
              rw [htl]; exact List.mem_cons_self _ _
            exact List.mem_cons_of_mem _ this
          · exact List.mem_cons_of_mem _ (ih3 r hr hlt)
    · simp only [scanAux, if_neg hc, Option.some.injEq] at hscan
      subst hscan
      refine ⟨by simp, ?_, by simp⟩
      intro x
      constructor
      · intro h; exact absurd h (by simp)
      · intro h; omega

/-! Helper lemmas about the Set-based deduplication. -/

theorem jsSetDedupGo_spec :
    ∀ (l seen : List Nat),
      (jsSetDedupGo seen l).Nodup ∧
      (∀ y, y ∈ jsSetDedupGo seen l ↔ (y ∈ l ∧ y ∉ seen)) := by
  intro l
  induction l with
  | nil => intro seen; simp [jsSetDedupGo]
  | cons x xs ih =>
    intro seen
    by_cases hx : x ∈ seen
    · obtain ⟨ihn, ihm⟩ := ih seen
      refine ⟨by simpa [jsSetDedupGo, hx] using ihn, ?_⟩
      intro y
      simp only [jsSetDedupGo, if_pos hx, ihm, List.mem_cons]
      constructor
      · intro ⟨h1, h2⟩; exact ⟨Or.inr h1, h2⟩
      · intro ⟨h1, h2⟩
        rcases h1 with h1 | h1
        · subst h1; exact absurd hx h2
        · exact ⟨h1, h2⟩
    · obtain ⟨ihn, ihm⟩ := ih (x :: seen)
      constructor
      · simp only [jsSetDedupGo, if_neg hx, List.nodup_cons]
        refine ⟨?_, ihn⟩
        intro hmem
        have := (ihm x).mp hmem
        simp at this
      · intro y
        simp only [jsSetDedupGo, if_neg hx, List.mem_cons, ihm, List.mem_cons]
        constructor
        · intro h
          rcases h with h | ⟨h1, h2⟩
          · subst h; exact ⟨Or.inl rfl, hx⟩
          · push_neg at h2
            exact ⟨Or.inr h1, h2.2⟩
        · intro ⟨h1, h2⟩
          rcases h1 with h1 | h1
          · exact Or.inl h1
          · by_cases hyx : y = x
            · exact Or.inl hyx
            · exact Or.inr ⟨h1, by simp [hyx, h2]⟩

theorem jsSetDedup_nodup (l : List Nat) : (jsSetDedup l).Nodup :=
  (jsSetDedupGo_spec l []).1

theorem mem_jsSetDedup (l : List Nat) (y : Nat) : y ∈ jsSetDedup l ↔ y ∈ l := by
  have := ((jsSetDedupGo_spec l []).2 y)
  simpa [jsSetDedup] using this

/-- Claim C8: for every array and every integer k greater than 0, chunk
returns an ordered sequence of sub-arrays each of length exactly k except
possibly the last (whose length is in the interval from 1 to k), such that
concatenating them in order reconstructs the input exactly; for every
k at most 0, chunk fails with an invalid-argument error. -/
theorem c8_chunk_spec (l : List α) (k : Int) :
    (k ≤ 0 → chunk l k = Except.error "Chunk size must be greater than 0") ∧
    (0 < k → ∃ cs, chunk l k = Except.ok cs ∧
      cs.flatten = l ∧
      (∀ c ∈ cs, 1 ≤ c.length ∧ c.length ≤ k.toNat) ∧
      (∀ c ∈ cs.dropLast, c.length = k.toNat)) := by
  constructor
  · intro hk
    simp [chunk, hk]
  · intro hk
    have hnot : ¬ k ≤ 0 := by omega
    refine ⟨chunksOf (k.toNat - 1) l, ?_, ?_, ?_, ?_⟩
    · simp [chunk, hnot]
    · exact chunksOf_flatten _ l
    · intro c hc
      have := chunksOfF_length_bounds (k.toNat - 1) l.length l c hc
      have hk1 : 1 ≤ k.toNat := by omega
      omega
    · intro c hc
      have := chunksOfF_dropLast_length (k.toNat - 1) l.length l le_rfl c hc
      have hk1 : 1 ≤ k.toNat := by omega
      omega

/-- Witness for C8 at a concrete input. -/
theorem c8_chunk_spec_witness :
    (chunk ([10, 20, 30, 40, 50] : List Nat) (-1)
      = Except.error "Chunk size must be greater than 0") ∧
    (∃ cs, chunk ([10, 20, 30, 40, 50] : List Nat) 2 = Except.ok cs ∧
      cs.flatten = [10, 20, 30, 40, 50] ∧
      (∀ c ∈ cs, 1 ≤ c.length ∧ c.length ≤ (2 : Int).toNat) ∧
      (∀ c ∈ cs.dropLast, c.length = (2 : Int).toNat)) :=
  ⟨(c8_chunk_spec [10, 20, 30, 40, 50] (-1)).1 (by decide),
   (c8_chunk_spec [10, 20, 30, 40, 50] 2).2 (by decide)⟩

/-- Counterexample to claim C2: the historical scan performs no
fromBlock-before-toBlock validation.  With fromBlock = 5 greater than
toBlock = 3 the scan is not rejected with an error: it issues zero log
queries and completes successfully with an empty result. -/
theorem c2_counterexample :
    collectBlockNumbersM (fun a b => [a + b]) 5 3 500 = some [] ∧
    queryRanges 5 3 500 = some [] := by decide

/-- Claim C2 amended: historical-mode configuration invariants are NOT
enforced up front.  fromBlock less than toBlock is never validated: when
toBlock is at most fromBlock the scan issues no queries and silently
returns an empty block list.  A logQuerySpan of 0 is not rejected either:
the scan loop then never terminates (for every iteration bound the loop is
still running).  Only a non-positive readBatchSize is rejected with an
error, by the chunker invoked before any state read. -/
theorem c2_amended (g : Nat → Nat → List Nat) (f t s : Nat) :
    (t ≤ f → collectBlockNumbersM g f t s = some [] ∧ queryRanges f t s = some []) ∧
    (f < t → ∀ fuel, scanAux g 0 t fuel f = none) ∧
    (∀ (read : Nat → Option String) (bn : List Nat) (k : Int) (d : Bool),
      k ≤ 0 → traceSample read bn k d = Except.error "Chunk size must be greater than 0") := by
  refine ⟨?_, ?_, ?_⟩
  · intro hle
    have hz : t - f = 0 := by omega
    have hc : ¬ f < t := by omega
    constructor
    · simp [collectBlockNumbersM, collectRaw, hz, scanAux, hc, jsSetDedup, jsSetDedupGo,
        List.insertionSort]
    · simp [queryRanges, collectRaw, hz, scanAux, hc]
  · intro hlt fuel
    induction fuel with
    | zero => simp [scanAux, hlt]
    | succ n ih =>
      simp only [scanAux, if_pos hlt]
      have : f + 0 = f := rfl
      rw [this, ih]
  · intro read bn k d hk
    simp [traceSample, chunk, hk]

/-- Witness for the amended C2 at concrete inputs. -/
theorem c2_amended_witness :
    (collectBlockNumbersM (fun _ _ => [7]) 5 3 500 = some [] ∧
      queryRanges 5 3 500 = some []) ∧
    scanAux (fun _ _ => [7]) 0 9 4 2 = none ∧
    traceSample (fun b => some (Nat.repr b)) [1, 2, 3] (-2) true
      = Except.error "Chunk size must be greater than 0" :=
  ⟨(c2_amended (fun _ _ => [7]) 5 3 500).1 (by decide),
   (c2_amended (fun _ _ => [7]) 2 9 0).2.1 (by decide) 4,
   (c2_amended (fun _ _ => [7]) 2 9 0).2.2 (fun b => some (Nat.repr b)) [1, 2, 3] (-2) true
     (by decide)⟩

/-- Claim C5: for every set of logs returned across sub-range queries,
collectBlockNumbers returns the block numbers deduplicated via set
membership and sorted numerically ascending; the returned sequence is
strictly ascending with no duplicates and holds exactly the block numbers
of the collected logs. -/
theorem c5_collect_sorted (g : Nat → Nat → List Nat) (f t s : Nat) (hs : 1 ≤ s) :
    (∃ l, collectBlockNumbersM g f t s = some l) ∧
    (∀ raw, collectRaw g f t s = some raw →
      collectBlockNumbersM g f t s
        = some (List.insertionSort (· ≤ ·) (jsSetDedup raw)) ∧
      (List.insertionSort (· ≤ ·) (jsSetDedup raw)).Pairwise (· < ·) ∧
      (∀ x, x ∈ List.insertionSort (· ≤ ·) (jsSetDedup raw) ↔ x ∈ raw)) := by
  constructor
  · obtain ⟨raw, hraw⟩ := scanAux_some g s t hs (t - f) f le_rfl
    exact ⟨List.insertionSort (· ≤ ·) (jsSetDedup raw),
      by simp [collectBlockNumbersM, collectRaw, hraw]⟩
  · intro raw hraw
    have hperm := List.perm_insertionSort (· ≤ ·) (jsSetDedup raw)
    refine ⟨by simp [collectBlockNumbersM, hraw], ?_, ?_⟩
    · have hsorted : (List.insertionSort (· ≤ ·) (jsSetDedup raw)).Sorted (· ≤ ·) :=
        List.sorted_insertionSort (· ≤ ·) (jsSetDedup raw)
      have hnodup : (List.insertionSort (· ≤ ·) (jsSetDedup raw)).Nodup :=
        hperm.nodup_iff.mpr (jsSetDedup_nodup raw)
      exact (List.Pairwise.and hsorted hnodup).imp
        (fun h => lt_of_le_of_ne h.1 h.2)
    · intro x
      rw [hperm.mem_iff, mem_jsSetDedup]

/-- Witness for C5: the sub-range queries return logs at blocks
100, 100, 250 and 500; the result is 100, 250, 500 - deduplicated and
numerically ascending. -/
theorem c5_collect_sorted_witness :
    (1 : Nat) ≤ 500 ∧
    ((∃ l, collectBlockNumbersM
        (fun a _ => if a = 0 then [100, 100, 250] else [500]) 0 600 500 = some l) ∧
    (∀ raw, collectRaw (fun a _ => if a = 0 then [100, 100, 250] else [500]) 0 600 500
          = some raw →
      collectBlockNumbersM (fun a _ => if a = 0 then [100, 100, 250] else [500]) 0 600 500
        = some (List.insertionSort (· ≤ ·) (jsSetDedup raw)) ∧
      (List.insertionSort (· ≤ ·) (jsSetDedup raw)).Pairwise (· < ·) ∧
      (∀ x, x ∈ List.insertionSort (· ≤ ·) (jsSetDedup raw) ↔ x ∈ raw))) :=
  ⟨by decide,
   c5_collect_sorted (fun a _ => if a = 0 then [100, 100, 250] else [500]) 0 600 500
     (by decide)⟩

/-- Counterexample to claim C6: with fromBlock = 0, toBlock = 600 and
logQuerySpan = 500 the scanner issues the argument pairs (0, 500) and
(500, 600); read as inclusive ranges, block 500 is covered by both queries
and block 600, which is toBlock itself, is covered by the last query -
refuting that no block is covered by two queries and that toBlock is never
queried. -/
theorem c6_counterexample :
    queryRanges 0 600 500 = some [(0, 500), (500, 600)] ∧
    (∀ r ∈ [((0 : Nat), (500 : Nat)), (500, 600)], r.1 ≤ 500 ∧ 500 ≤ r.2) ∧
    ((500 : Nat) ≤ 600 ∧ (600 : Nat) ≤ 600) := by decide

/-- Claim C6 amended: for every fromBlock strictly below toBlock and
logQuerySpan at least 1, the scanner issues queries with argument pairs
(cursor, min (cursor + span) toBlock), the cursor starting at fromBlock and
advancing by span while below toBlock.  Under inclusive getLogs semantics
the union of the queried ranges is exactly the inclusive interval from
fromBlock to toBlock - in particular toBlock itself IS queried - and every
boundary block cursor + span that is still below toBlock is covered by two
distinct queries, so consecutive sub-queries overlap in exactly that
boundary block. -/
theorem c6_amended (f t s : Nat) (hs : 1 ≤ s) (hft : f < t) :
    ∃ rs, queryRanges f t s = some rs ∧
      (∀ r ∈ rs, f ≤ r.1 ∧ r.1 < t ∧ r.2 = min (r.1 + s) t) ∧
      (∀ x, (∃ r ∈ rs, r.1 ≤ x ∧ x ≤ r.2) ↔ (f ≤ x ∧ x ≤ t)) ∧
      (∀ r ∈ rs, r.1 + s < t →
        (r.1 ≤ r.1 + s ∧ r.1 + s ≤ r.2) ∧
        ∃ q ∈ rs, q ≠ r ∧ q.1 ≤ r.1 + s ∧ r.1 + s ≤ q.2) ∧
      (∃ r ∈ rs, r.1 ≤ t ∧ t ≤ r.2) := by
  obtain ⟨rs, hrs⟩ := scanAux_some (fun a b => [(a, b)]) s t hs (t - f) f le_rfl
  obtain ⟨h1, h2, h3⟩ := scanRanges_spec s t hs (t - f) f rs le_rfl hrs
  refine ⟨rs, hrs, h1, ?_, ?_, ?_⟩
  · intro x
    rw [h2 x]
    omega
  · intro r hr hlt
    have hr2 : r.2 = min (r.1 + s) t := (h1 r hr).2.2
    refine ⟨⟨by omega, by omega⟩, ?_⟩
    refine ⟨(r.1 + s, min (r.1 + s + s) t), h3 r hr hlt, ?_, le_rfl, by omega⟩
    intro heq
    have : r.1 + s = r.1 := congrArg Prod.fst heq
    omega
  · have := (h2 t).mpr ⟨by omega, le_rfl, hft⟩
    exact this

/-- Witness for the amended C6 at fromBlock 0, toBlock 600, span 500. -/
theorem c6_amended_witness :
    (1 : Nat) ≤ 500 ∧ (0 : Nat) < 600 ∧
    (∃ rs, queryRanges 0 600 500 = some rs ∧
      (∀ r ∈ rs, 0 ≤ r.1 ∧ r.1 < 600 ∧ r.2 = min (r.1 + 500) 600) ∧
      (∀ x, (∃ r ∈ rs, r.1 ≤ x ∧ x ≤ r.2) ↔ (0 ≤ x ∧ x ≤ 600)) ∧
      (∀ r ∈ rs, r.1 + 500 < 600 →
        (r.1 ≤ r.1 + 500 ∧ r.1 + 500 ≤ r.2) ∧
        ∃ q ∈ rs, q ≠ r ∧ q.1 ≤ r.1 + 500 ∧ r.1 + 500 ≤ q.2) ∧
      (∃ r ∈ rs, r.1 ≤ 600 ∧ 600 ≤ r.2)) :=
  ⟨by decide, by decide, c6_amended 0 600 500 (by decide) (by decide)⟩

/-- Claim C9: for every array and equality predicate, dedup retains the
first element, and retains each subsequent element exactly when the
predicate says it is not equal to the immediately preceding input element;
empty and single-element inputs are returned unchanged. -/
theorem c9_dedup_spec (cmp : α → α → Bool) (x : α) (xs : List α) :
    dedup cmp ([] : List α) = [] ∧
    dedup cmp [x] = [x] ∧
    dedup cmp (x :: xs)
      = x :: (xs.zip (x :: xs)).filterMap
          (fun q => if cmp q.1 q.2 then none else some q.1) := by
  refine ⟨rfl, rfl, ?_⟩
  cases xs with
  | nil => rfl
  | cons y ys =>
    simp only [dedup]
    rw [dedupGo_eq]

/-! Helper lemmas about the sampling phase of trace. -/

theorem filter_map_readRow (read : Nat → Option String)
    (herr : ∀ b v, read b = some v → v ≠ "ERROR") :
    ∀ bn : List Nat,
      (bn.map (readRow read)).filter (fun r => r.value != "ERROR")
        = bn.filterMap (fun b => (read b).map (fun v => (⟨b, v⟩ : TraceResult))) := by
  intro bn
  induction bn with
  | nil => rfl
  | cons b rest ih =>
    simp only [List.map_cons, List.filter_cons, List.filterMap_cons]
    cases hrb : read b with
    | none => simp [readRow, hrb, ih]
    | some v =>
      have hv : v ≠ "ERROR" := herr b v hrb
      simp [readRow, hrb, ih, hv]

theorem traceSample_base (read : Nat → Option String) (bn : List Nat) (k : Int)
    (hk : 0 < k) (herr : ∀ b v, read b = some v → v ≠ "ERROR") (d : Bool) :
    traceSample read bn k d = Except.ok
      (if d then
        dedup (fun a b => a.value == b.value)
          (bn.filterMap (fun b => (read b).map (fun v => ⟨b, v⟩)))
       else bn.filterMap (fun b => (read b).map (fun v => ⟨b, v⟩))) := by
  have hnot : ¬ k ≤ 0 := by omega
  have hchunk : chunk bn k = Except.ok (chunksOf (k.toNat - 1) bn) := by
    simp [chunk, hnot]
  have hflat :
      ((chunksOf (k.toNat - 1) bn).map (fun c => c.map (readRow read))).flatten
        = bn.map (readRow read) := by
    rw [← List.map_flatten, chunksOf_flatten]
  simp only [traceSample, hchunk, hflat, filter_map_readRow read herr bn]

/-- Claim C4: a throwing state read is converted locally into an ERROR
sentinel row that never aborts its batch or the overall sample, and every
sentinel row is filtered out before the result is returned, so no returned
SampleResult has value ERROR; with dedup disabled the result is exactly the
in-order list of successful reads, each failing block silently dropped. -/
theorem c4_error_isolation (read : Nat → Option String) (bn : List Nat)
    (k : Int) (d : Bool) (hk : 0 < k)
    (herr : ∀ b v, read b = some v → v ≠ "ERROR") :
    ∃ rs, traceSample read bn k d = Except.ok rs ∧
      (∀ r ∈ rs, r.value ≠ "ERROR") ∧
      (d = false →
        rs = bn.filterMap (fun b => (read b).map (fun v => ⟨b, v⟩))) := by
  refine ⟨_, traceSample_base read bn k hk herr d, ?_, ?_⟩
  · intro r hr
    have hrbase : r ∈ bn.filterMap (fun b => (read b).map (fun v => (⟨b, v⟩ : TraceResult))) := by
      cases d with
      | false => simpa using hr
      | true =>
        simp only [if_true] at hr
        exact mem_dedup _ _ r (by simpa using hr)
    obtain ⟨b, _, hmap⟩ := List.mem_filterMap.mp hrbase
    obtain ⟨v, hrb, hv⟩ := Option.map_eq_some'.mp hmap
    have : r.value = v := by rw [← hv]
    rw [this]
    exact herr b v hrb
  · intro hd
    subst hd
    simp

/-- Witness for C4: block 2 of the batch [1, 2] throws; blocks 1 and 3
still appear and no ERROR row is returned. -/
theorem c4_error_isolation_witness :
    0 < (2 : Int) ∧
    (∀ b v, (fun b => if b = 2 then none else some "7") b = some v → v ≠ "ERROR") ∧
    (∃ rs, traceSample (fun b => if b = 2 then none else some "7") [1, 2, 3] 2 false
        = Except.ok rs ∧
      (∀ r ∈ rs, r.value ≠ "ERROR") ∧
      (false = false →
        rs = List.filterMap
          (fun b => ((fun b => if b = 2 then none else some "7") b).map
            (fun v => ⟨b, v⟩)) [1, 2, 3])) :=
  ⟨by decide,
   by
     intro b v h
     by_cases hb : b = 2
     · simp [hb] at h
     · simp only [if_neg hb, Option.some.injEq] at h
       rw [← h]
       decide,
   c4_error_isolation (fun b => if b = 2 then none else some "7") [1, 2, 3] 2 false
     (by decide)
     (by
       intro b v h
       by_cases hb : b = 2
       · simp [hb] at h
       · simp only [if_neg hb, Option.some.injEq] at h
         rw [← h]
         decide)⟩

/-- Claim C3 evaluated at the failing input: with three blocks and batch
size 1 the sampling loop emits the 100 percent event (current = total = 3)
three times, once per batch, and each such emission precedes the settlement
of its own batch - the claim says it is emitted exactly once, after the
last batch has settled. -/
theorem c3_progress_eval :
    traceSampleEvents [1, 2, 3] 1
      = Except.ok
          [TraceEvent.progress 0 3, TraceEvent.progress 3 3, TraceEvent.batchSettled 0,
           TraceEvent.progress 1 3, TraceEvent.progress 3 3, TraceEvent.batchSettled 1,
           TraceEvent.progress 2 3, TraceEvent.progress 3 3, TraceEvent.batchSettled 2] ∧
    ([TraceEvent.progress 0 3, TraceEvent.progress 3 3, TraceEvent.batchSettled 0,
      TraceEvent.progress 1 3, TraceEvent.progress 3 3, TraceEvent.batchSettled 1,
      TraceEvent.progress 2 3, TraceEvent.progress 3 3, TraceEvent.batchSettled 2].countP
        (fun e => e == TraceEvent.progress 3 3)) = 3 :=
  ⟨rfl, by decide⟩

/-! Helper lemmas about the watcher retry loop. -/

theorem range_map_delay_shift (a r : Nat) :
    (List.range (r + 1)).map (fun i => WEvent.delay (1000 * (a + i + 1)))
      = WEvent.delay (1000 * (a + 1)) ::
        (List.range r).map (fun i => WEvent.delay (1000 * (a + 1 + i + 1))) := by
  rw [List.range_succ_eq_map, List.map_cons, List.map_map]
  refine congrArg₂ List.cons rfl ?_
  apply List.map_congr_left
  intro i _
  simp only [Function.comp_apply, Nat.succ_eq_add_one]
  congr 1
  omega

theorem onReadSuccess_events (filter : Option (Option TraceResult → TraceResult → Bool))
    (current : Option TraceResult) (n : TraceResult) :
    (onReadSuccess filter current n).2 = [] ∨
    (onReadSuccess filter current n).2 = [WEvent.notify current n] := by
  unfold onReadSuccess
  split
  · exact Or.inl rfl
  · split
    · exact Or.inr rfl
    · exact Or.inl rfl

theorem checkGo_fail_all (read : Nat → Option String)
    (filter : Option (Option TraceResult → TraceResult → Bool))
    (b : Nat) (cur : Option TraceResult) :
    ∀ (remaining attempt : Nat),
      (∀ i, i ≤ remaining → read (attempt + i) = none) →
      checkGo read filter b cur attempt remaining
        = (cur, ((List.range remaining).map
            (fun i => WEvent.delay (1000 * (attempt + i + 1)))) ++ [WEvent.errorHandled]) := by
  intro remaining
  induction remaining with
  | zero =>
    intro attempt h
    have h0 : read attempt = none := h 0 (Nat.le_refl 0)
    simp [checkGo, h0]
  | succ r ih =>
    intro attempt h
    have h0 : read attempt = none := by
      have := h 0 (Nat.zero_le _)
      simpa using this
    have hrec := ih (attempt + 1) (fun i hi => by
      have := h (i + 1) (by omega)
      rwa [show attempt + (i + 1) = attempt + 1 + i by omega] at this)
    simp only [checkGo, h0, hrec]
    rw [range_map_delay_shift]
    rfl

theorem checkGo_succeeds (read : Nat → Option String)
    (filter : Option (Option TraceResult → TraceResult → Bool))
    (b : Nat) (cur : Option TraceResult) (v : String) :
    ∀ (k attempt remaining : Nat), k ≤ remaining →
      (∀ i, i < k → read (attempt + i) = none) →
      read (attempt + k) = some v →
      checkGo read filter b cur attempt remaining
        = ((onReadSuccess filter cur ⟨b, v⟩).1,
           ((List.range k).map (fun i => WEvent.delay (1000 * (attempt + i + 1))))
             ++ (onReadSuccess filter cur ⟨b, v⟩).2) := by
  intro k
  induction k with
  | zero =>
    intro attempt remaining _ _ hsucc
    have h0 : read attempt = some v := by simpa using hsucc
    cases remaining with
    | zero => simp [checkGo, h0]
    | succ r => simp [checkGo, h0]
  | succ k ih =>
    intro attempt remaining hk hfail hsucc
    have h0 : read attempt = none := by
      have := hfail 0 (by omega)
      simpa using this
    cases remaining with
    | zero => omega
    | succ r =>
      have hrec := ih (attempt + 1) r (by omega)
        (fun i hi => by
          have := hfail (i + 1) (by omega)
          rwa [show attempt + (i + 1) = attempt + 1 + i by omega] at this)
        (by rwa [show attempt + 1 + k = attempt + (k + 1) by omega])
      simp only [checkGo, h0, hrec]
      rw [range_map_delay_shift]
      rfl

/-- Counterexample to claim C1: the re-read at block 5 yields the value 2,
different from the last known value 1, and a filter is supplied; the filter
returns false, and the watcher leaves current at the OLD value (and emits
nothing) - current does not advance to the new value, refuting that the
update of current is unconditional and precedes the filter decision. -/
theorem c1_counterexample :
    checkValueChange (fun _ => some "2") (some (fun _ _ => false)) 3 5
        (some { blockNumber := 1, value := "1" })
      = (some { blockNumber := 1, value := "1" }, []) ∧
    ({ blockNumber := 1, value := "1" } : TraceResult).value ≠ "2" := by decide

/-- Claim C1 amended: in watch mode, when a re-read yields a value
different from the last known value and a filter predicate is supplied,
current advances only when the filter accepts: the filter returning false
suppresses both the change callback and the update of current, and the
filter returning true updates current and invokes the callback once. -/
theorem c1_amended (read : Nat → Option String)
    (filt : Option TraceResult → TraceResult → Bool) (maxR b : Nat)
    (c : TraceResult) (v : String)
    (hread : read 0 = some v) (hne : c.value ≠ v) :
    (filt (some c) ⟨b, v⟩ = false →
      checkValueChange read (some filt) maxR b (some c) = (some c, [])) ∧
    (filt (some c) ⟨b, v⟩ = true →
      checkValueChange read (some filt) maxR b (some c)
        = (some ⟨b, v⟩, [WEvent.notify (some c) ⟨b, v⟩])) := by
  have hbeq : (c.value == v) = false := by
    simp [hne]
  constructor
  · intro hf
    cases maxR <;> simp [checkValueChange, checkGo, hread, onReadSuccess, hbeq, hf]
  · intro hf
    cases maxR <;> simp [checkValueChange, checkGo, hread, onReadSuccess, hbeq, hf]

/-- Witness for the amended C1 at concrete inputs: a rejecting filter
leaves current at the old value; an accepting filter advances it. -/
theorem c1_amended_witness :
    checkValueChange (fun _ => some "2") (some (fun _ _ => false)) 3 5
        (some { blockNumber := 1, value := "1" })
      = (some { blockNumber := 1, value := "1" }, []) ∧
    checkValueChange (fun _ => some "2") (some (fun _ _ => true)) 3 5
        (some { blockNumber := 1, value := "1" })
      = (some { blockNumber := 5, value := "2" },
         [WEvent.notify (some { blockNumber := 1, value := "1" })
            { blockNumber := 5, value := "2" }]) :=
  ⟨(c1_amended (fun _ => some "2") (fun _ _ => false) 3 5
      { blockNumber := 1, value := "1" } "2" rfl (by decide)).1 rfl,
   (c1_amended (fun _ => some "2") (fun _ _ => true) 3 5
      { blockNumber := 1, value := "1" } "2" rfl (by decide)).2 rfl⟩

/-- Claim C7: a watcher value check retries a failed read up to maxRetries
times, waiting 1000 ms times the attempt number before the next attempt
(linear backoff), and routes the error to the error handler only after the
final retry fails - when every attempt fails, the events are exactly the
delays 1000, 2000, ..., 1000 * maxRetries followed by one error-handler
call; when attempt k succeeds within the retries, the events are the
delays 1000, ..., 1000 * k followed by the success handling, which emits at
most one change notification and never the error handler. -/
theorem c7_retry_spec (read : Nat → Option String)
    (filter : Option (Option TraceResult → TraceResult → Bool))
    (maxR b : Nat) (cur : Option TraceResult) :
    ((∀ r, r ≤ maxR → read r = none) →
      checkValueChange read filter maxR b cur
        = (cur, ((List.range maxR).map (fun i => WEvent.delay (1000 * (i + 1))))
            ++ [WEvent.errorHandled])) ∧
    (∀ k v, k ≤ maxR → (∀ r, r < k → read r = none) → read k = some v →
      checkValueChange read filter maxR b cur
        = ((onReadSuccess filter cur ⟨b, v⟩).1,
           ((List.range k).map (fun i => WEvent.delay (1000 * (i + 1))))
             ++ (onReadSuccess filter cur ⟨b, v⟩).2) ∧
      (onReadSuccess filter cur ⟨b, v⟩).2.countP WEvent.isNotify ≤ 1 ∧
      WEvent.errorHandled ∉ (onReadSuccess filter cur ⟨b, v⟩).2) := by
  constructor
  · intro hfail
    have := checkGo_fail_all read filter b cur maxR 0 (fun i hi => by
      have := hfail i hi
      rwa [Nat.zero_add])
    rw [checkValueChange, this]
    simp only [Nat.zero_add]
  · intro k v hk hfail hsucc
    have heq := checkGo_succeeds read filter b cur v k 0 maxR hk
      (fun i hi => by
        have := hfail i hi
        rwa [Nat.zero_add])
      (by rwa [Nat.zero_add])
    refine ⟨by rw [checkValueChange, heq]; simp only [Nat.zero_add], ?_, ?_⟩
    · rcases onReadSuccess_events filter cur ⟨b, v⟩ with h | h <;> simp [h, WEvent.isNotify]
    · rcases onReadSuccess_events filter cur ⟨b, v⟩ with h | h <;> simp [h]

/-- Witness for C7: a read failing twice then succeeding at attempt 2
within maxRetries = 3 yields delays of 1000 and 2000 ms and then the
single-notification success handling; a read failing on every attempt
yields delays 1000, 2000, 3000 and one error-handler call. -/
theorem c7_retry_spec_witness :
    ((2 : Nat) ≤ 3 ∧
      (checkValueChange (fun r => if r < 2 then none else some "7") none 3 5 none
        = ((onReadSuccess none none ⟨5, "7"⟩).1,
           ((List.range 2).map (fun i => WEvent.delay (1000 * (i + 1))))
             ++ (onReadSuccess none none ⟨5, "7"⟩).2) ∧
       (onReadSuccess none none ⟨5, "7"⟩).2.countP WEvent.isNotify ≤ 1 ∧
       WEvent.errorHandled ∉ (onReadSuccess none none ⟨5, "7"⟩).2)) ∧
    checkValueChange (fun _ => none) none 3 5 none
      = (none, ((List.range 3).map (fun i => WEvent.delay (1000 * (i + 1))))
          ++ [WEvent.errorHandled]) :=
  ⟨⟨by decide,
    (c7_retry_spec (fun r => if r < 2 then none else some "7") none 3 5 none).2 2 "7"
      (by decide) (by decide) (by decide)⟩,
   (c7_retry_spec (fun _ => none) none 3 5 none).1 (fun r _ => rfl)⟩

/-- Claim C10: in watch mode, when no last known value exists (current is
undefined), the equality skip is bypassed: a first successful re-read at a
log block reaches the filter stage, and when the filter is absent or
returns true the callback is invoked with prev undefined and current is
seeded with the new result. -/
theorem c10_seed_from_undefined (read : Nat → Option String)
    (filter : Option (Option TraceResult → TraceResult → Bool))
    (maxR b : Nat) (v : String)
    (hread : read 0 = some v)
    (hpass : (match filter with
              | none => true
              | some f => f none ⟨b, v⟩) = true) :
    checkValueChange read filter maxR b none
      = (some ⟨b, v⟩, [WEvent.notify none ⟨b, v⟩]) := by
  cases maxR <;> simp [checkValueChange, checkGo, hread, onReadSuccess, hpass]

/-- Witness for C10: with no initial value and a successful read of 9 at
block 7, the callback fires with prev undefined and current becomes the
new result. -/
theorem c10_seed_from_undefined_witness :
    checkValueChange (fun _ => some "9") none 3 7 none
      = (some { blockNumber := 7, value := "9" },
         [WEvent.notify none { blockNumber := 7, value := "9" }]) :=
  c10_seed_from_undefined (fun _ => some "9") none 3 7 "9" rfl rfl

end CVT
